import Mathlib

/-!
Shallow embedding of the vending machine system
(src/03-vending-machine/vending_machine.py).

Monetary quantities inside the machine (balance, price, total_amount) are
Decimal values quantized to two fractional digits in the source; they are
embedded as integers counting cents.  External monetary inputs (the float
arguments of insert_money and the Product constructor) are embedded as
rational numbers; the quantize call with ROUND_HALF_UP on a positive input
is floor of 100 times the amount plus one half.

Python exceptions are embedded as an error type; every operation returns a
pair of the call result (Except) and the post-state, so that a raised
exception leaves exactly the mutations that happened before the raise.
-/

namespace VM

/-- Error kinds: one constructor per exception class raised by the source
(ValueError covers both invalid amounts and invalid quantities, as in the
source). -/
inductive VMError
  | valueError
  | outOfStockError
  | invalidStateError
  | productNotFoundError
  | insufficientFundsError
  | productCodeAlreadyUsedError
  deriving DecidableEq, Repr

/-- Decimal(str(amount)).quantize(Decimal(0.01), ROUND_HALF_UP), in cents.
ROUND_HALF_UP rounds ties away from zero; the source only applies it to
positive amounts, where it is floor(100 q + 1/2). -/
def roundHalfUpCents (q : ℚ) : ℤ := ⌊q * 100 + 1 / 2⌋

/-- Product: name, price (cents, quantized), code.  Source equality and
hashing are by code only. -/
structure Product where
  name : String
  price : ℤ
  code : String
  deriving DecidableEq, Repr

/-- Product.__init__: rejects price <= 0.00 before quantizing, then stores
the quantized price. -/
def Product.make (name : String) (price : ℚ) (code : String) : Except VMError Product :=
  if price ≤ 0 then .error .valueError
  else .ok ⟨name, roundHalfUpCents price, code⟩

/-- The source inventory is a Python dict keyed by Product, whose equality
and hash are by code; embedded as an association list in insertion order,
looked up and updated by code. -/
structure Inventory where
  stock : List (Product × ℤ)
  deriving DecidableEq, Repr

/-- Dict lookup by code: first entry whose key has the given code. -/
def lookupEntry (l : List (Product × ℤ)) (code : String) : Option (Product × ℤ) :=
  match l with
  | [] => none
  | e :: rest => if e.1.code = code then some e else lookupEntry rest code

/-- Dict assignment by code: replace the count of the first entry with the
given code keeping its stored key, or append a new entry. -/
def updateStock (l : List (Product × ℤ)) (p : Product) (n : ℤ) : List (Product × ℤ) :=
  match l with
  | [] => [(p, n)]
  | e :: rest => if e.1.code = p.code then (e.1, n) :: rest else e :: updateStock rest p n

/-- Inventory.get_product: linear scan for the first product with the code. -/
def Inventory.get_product (inv : Inventory) (code : String) : Option Product :=
  (lookupEntry inv.stock code).map (fun e => e.1)

/-- Inventory.get_product_stock: dict get with default 0, keyed by code. -/
def Inventory.get_product_stock (inv : Inventory) (p : Product) : ℤ :=
  match lookupEntry inv.stock p.code with
  | some e => e.2
  | none => 0

/-- Inventory.has_stock. -/
def Inventory.has_stock (inv : Inventory) (p : Product) : Prop :=
  0 < inv.get_product_stock p

instance (inv : Inventory) (p : Product) : Decidable (inv.has_stock p) :=
  inferInstanceAs (Decidable (0 < inv.get_product_stock p))

/-- Inventory.add_product: quantity must be positive; a registered product
with the same code and a different name is a conflict; otherwise the stored
count for the code is raised by quantity (the entry is created if absent).
Returns the argument product and the new count, as the source does. -/
def Inventory.add_product (inv : Inventory) (product : Product) (quantity : ℤ) :
    Except VMError (Product × ℤ) × Inventory :=
  if quantity ≤ 0 then (.error .valueError, inv)
  else
    match inv.get_product product.code with
    | some existing =>
      if product.name ≠ existing.name then (.error .productCodeAlreadyUsedError, inv)
      else
        let n := inv.get_product_stock product + quantity
        (.ok (product, n), ⟨updateStock inv.stock product n⟩)
    | none =>
      let n := inv.get_product_stock product + quantity
      (.ok (product, n), ⟨updateStock inv.stock product n⟩)

/-- Inventory.dispense_product: out of stock when the count is not
positive, otherwise the count drops by exactly one. -/
def Inventory.dispense_product (inv : Inventory) (product : Product) :
    Except VMError (Product × ℤ) × Inventory :=
  if ¬ inv.has_stock product then (.error .outOfStockError, inv)
  else
    let n := inv.get_product_stock product - 1
    (.ok (product, n), ⟨updateStock inv.stock product n⟩)

/-- The three state classes of the source, as a tag. -/
inductive StateTag
  | idle
  | hasMoney
  | dispensing
  deriving DecidableEq, Repr

/-- VendingMachine: inventory, balance and lifetime total in cents, and the
current state tag. -/
structure VendingMachine where
  name : String
  inventory : Inventory
  balance : ℤ
  total_amount : ℤ
  state : StateTag
  deriving DecidableEq, Repr

/-- VendingMachine.__init__. -/
def VendingMachine.new (name : String) : VendingMachine :=
  ⟨name, ⟨[]⟩, 0, 0, .idle⟩

/-- insert_money, dispatched on the current state.  IdleState stores the
rounded amount as the balance and moves to HasMoney; HasMoneyState adds the
rounded amount; DispensingState rejects.  Non-positive amounts raise
ValueError before any mutation. -/
def VendingMachine.insert_money (m : VendingMachine) (amount : ℚ) :
    Except VMError ℤ × VendingMachine :=
  match m.state with
  | .idle =>
    if amount ≤ 0 then (.error .valueError, m)
    else
      let b := roundHalfUpCents amount
      (.ok b, { m with balance := b, state := .hasMoney })
  | .hasMoney =>
    if amount ≤ 0 then (.error .valueError, m)
    else
      let b := m.balance + roundHalfUpCents amount
      (.ok b, { m with balance := b })
  | .dispensing => (.error .invalidStateError, m)

/-- select_product, dispatched on the current state.  From HasMoney: look
up the code, check stock, check funds, then move to Dispensing, dispense,
compute change, add the price to the lifetime total, zero the balance and
return to Idle.  A dispense failure would leave the machine in Dispensing
with the inventory untouched, as the raised exception would in the source. -/
def VendingMachine.select_product (m : VendingMachine) (code : String) :
    Except VMError (Product × ℤ) × VendingMachine :=
  match m.state with
  | .idle => (.error .invalidStateError, m)
  | .dispensing => (.error .invalidStateError, m)
  | .hasMoney =>
    match m.inventory.get_product code with
    | none => (.error .productNotFoundError, m)
    | some product =>
      if ¬ m.inventory.has_stock product then (.error .outOfStockError, m)
      else if m.balance < product.price then (.error .insufficientFundsError, m)
      else
        let m1 := { m with state := StateTag.dispensing }
        match m1.inventory.dispense_product product with
        | (.error e, inv1) => (.error e, { m1 with inventory := inv1 })
        | (.ok _, inv1) =>
          let change := m1.balance - product.price
          (.ok (product, change),
            { m1 with
                inventory := inv1
                total_amount := m1.total_amount + product.price
                balance := 0
                state := StateTag.idle })

/-- cancel, dispatched on the current state.  IdleState and DispensingState
raise InvalidStateError.  HasMoneyState returns the balance and zeroes it;
the source does not set the state back to idle, so the tag stays hasMoney. -/
def VendingMachine.cancel (m : VendingMachine) : Except VMError ℤ × VendingMachine :=
  match m.state with
  | .idle => (.error .invalidStateError, m)
  | .hasMoney => (.ok m.balance, { m with balance := 0 })
  | .dispensing => (.error .invalidStateError, m)

/-- The external operations: the three transaction commands plus the
administrative stocking call, whose product goes through Product.make. -/
inductive Op
  | insertMoney (amount : ℚ)
  | selectProduct (code : String)
  | cancel
  | addProduct (name : String) (price : ℚ) (code : String) (quantity : ℤ)

/-- The post-state of one external operation (results discarded). -/
def VendingMachine.runOp (m : VendingMachine) : Op → VendingMachine
  | .insertMoney a => (m.insert_money a).2
  | .selectProduct c => (m.select_product c).2
  | .cancel => m.cancel.2
  | .addProduct name price code qty =>
    match Product.make name price code with
    | .error _ => m
    | .ok p => { m with inventory := (m.inventory.add_product p qty).2 }

/-- Machine states reachable from a freshly constructed machine by any
sequence of external operations. -/
inductive Reachable : VendingMachine → Prop
  | init (name : String) : Reachable (VendingMachine.new name)
  | step {m : VendingMachine} (op : Op) : Reachable m → Reachable (m.runOp op)

/-! Concrete values used by witnesses. -/

def coke : Product := ⟨"Coke", 250, "A1"⟩

def demoMachine : VendingMachine := ⟨"M", ⟨[(coke, 10)]⟩, 300, 0, .hasMoney⟩

def demoSold : VendingMachine := (demoMachine.select_product "A1").2

/-- The machine obtained by inserting three dollars into a fresh machine
and then cancelling. -/
def afterCancel : VendingMachine :=
  ((VendingMachine.new "M").runOp (.insertMoney 3)).runOp .cancel

/-! Lemmas about lookup and update on the stock association list. -/

theorem lookupEntry_mem {l : List (Product × ℤ)} {c : String} {e : Product × ℤ}
    (h : lookupEntry l c = some e) : e ∈ l := by
  induction l with
  | nil => simp [lookupEntry] at h
  | cons a rest ih =>
    rw [lookupEntry] at h
    split at h
    · simp_all
    · exact List.mem_cons_of_mem a (ih h)

theorem lookupEntry_code {l : List (Product × ℤ)} {c : String} {e : Product × ℤ}
    (h : lookupEntry l c = some e) : e.1.code = c := by
  induction l with
  | nil => simp [lookupEntry] at h
  | cons a rest ih =>
    rw [lookupEntry] at h
    split at h
    · cases h; assumption
    · exact ih h

theorem get_stock_updateStock_eq (l : List (Product × ℤ)) (p q : Product) (n : ℤ)
    (h : q.code = p.code) :
    (Inventory.mk (updateStock l p n)).get_product_stock q = n := by
  induction l with
  | nil => simp [Inventory.get_product_stock, updateStock, lookupEntry, h]
  | cons a rest ih =>
    rw [updateStock]
    split
    · next hc => simp [Inventory.get_product_stock, lookupEntry, h, hc]
    · next hc =>
      have hq : ¬ a.1.code = q.code := by rw [h]; exact hc
      simpa [Inventory.get_product_stock, lookupEntry, hq] using ih

theorem get_stock_updateStock_ne (l : List (Product × ℤ)) (p q : Product) (n : ℤ)
    (h : q.code ≠ p.code) :
    (Inventory.mk (updateStock l p n)).get_product_stock q =
      (Inventory.mk l).get_product_stock q := by
  induction l with
  | nil => simp [Inventory.get_product_stock, updateStock, lookupEntry, Ne.symm h]
  | cons a rest ih =>
    rw [updateStock]
    split
    · next hc =>
      have hq : ¬ a.1.code = q.code := by
        intro hx; exact h (by rw [← hx, hc])
      simp [Inventory.get_product_stock, lookupEntry, hq]
    · next hc =>
      by_cases hq : a.1.code = q.code
      · simp [Inventory.get_product_stock, lookupEntry, hq]
      · simpa [Inventory.get_product_stock, lookupEntry, hq] using ih

theorem mem_updateStock {l : List (Product × ℤ)} {p : Product} {n : ℤ} {e : Product × ℤ}
    (he : e ∈ updateStock l p n) :
    e ∈ l ∨ (e.2 = n ∧ (e.1 = p ∨ ∃ f ∈ l, e.1 = f.1)) := by
  induction l with
  | nil =>
    rw [updateStock] at he
    right
    rcases List.mem_singleton.mp he with rfl
    exact ⟨rfl, Or.inl rfl⟩
  | cons a rest ih =>
    rw [updateStock] at he
    split at he
    · rcases List.mem_cons.mp he with rfl | hr
      · exact Or.inr ⟨rfl, Or.inr ⟨a, List.mem_cons_self a rest, rfl⟩⟩
      · exact Or.inl (List.mem_cons_of_mem a hr)
    · rcases List.mem_cons.mp he with rfl | hr
      · exact Or.inl (List.mem_cons_self e rest)
      · rcases ih hr with h1 | ⟨h2, h3⟩
        · exact Or.inl (List.mem_cons_of_mem a h1)
        · refine Or.inr ⟨h2, ?_⟩
          rcases h3 with h3 | ⟨f, hf, hef⟩
          · exact Or.inl h3
          · exact Or.inr ⟨f, List.mem_cons_of_mem a hf, hef⟩

/-! Inventory invariants. -/

/-- All stored unit counts are non-negative. -/
def stockNonneg (inv : Inventory) : Prop := ∀ e ∈ inv.stock, 0 ≤ e.2

/-- All stored catalog prices are non-negative. -/
def pricesNonneg (inv : Inventory) : Prop := ∀ e ∈ inv.stock, 0 ≤ e.1.price

theorem get_product_stock_nonneg {inv : Inventory} (h : stockNonneg inv) (p : Product) :
    0 ≤ inv.get_product_stock p := by
  rw [Inventory.get_product_stock]
  rcases he : lookupEntry inv.stock p.code with _ | e
  · simp
  · exact h e (lookupEntry_mem he)

theorem get_product_mem {inv : Inventory} {c : String} {p : Product}
    (h : inv.get_product c = some p) : ∃ n, (p, n) ∈ inv.stock := by
  rw [Inventory.get_product] at h
  rcases he : lookupEntry inv.stock c with _ | e
  · rw [he] at h
    exact absurd h (by simp [Option.map])
  · rw [he] at h
    simp only [Option.map, Option.some.injEq] at h
    exact ⟨e.2, by rw [← h]; exact lookupEntry_mem he⟩

theorem get_product_price_nonneg {inv : Inventory} (h : pricesNonneg inv)
    {c : String} {p : Product} (hp : inv.get_product c = some p) : 0 ≤ p.price := by
  rcases get_product_mem hp with ⟨n, hn⟩
  exact h (p, n) hn

/-! Frame and case-analysis lemmas for the machine operations. -/

theorem insert_money_frame (m : VendingMachine) (a : ℚ) :
    (m.insert_money a).2.inventory = m.inventory ∧
    (m.insert_money a).2.total_amount = m.total_amount := by
  rw [VendingMachine.insert_money]
  rcases m.state with _ | _ | _
  · dsimp only
    split
    · exact ⟨rfl, rfl⟩
    · exact ⟨rfl, rfl⟩
  · dsimp only
    split
    · exact ⟨rfl, rfl⟩
    · exact ⟨rfl, rfl⟩
  · exact ⟨rfl, rfl⟩

theorem cancel_frame (m : VendingMachine) :
    m.cancel.2.inventory = m.inventory ∧ m.cancel.2.total_amount = m.total_amount := by
  rw [VendingMachine.cancel]
  rcases m.state <;> exact ⟨rfl, rfl⟩

/-- Every call of select_product either fails with the pre-state returned
untouched, or succeeds from hasMoney on a stocked, affordable product with
the full effect made explicit. -/
theorem select_product_spec (m : VendingMachine) (code : String) :
    (∃ e, m.select_product code = (.error e, m)) ∨
    (∃ p, m.state = .hasMoney ∧ m.inventory.get_product code = some p ∧
      m.inventory.has_stock p ∧ p.price ≤ m.balance ∧
      m.select_product code =
        (.ok (p, m.balance - p.price),
          { m with
              inventory := ⟨updateStock m.inventory.stock p (m.inventory.get_product_stock p - 1)⟩,
              total_amount := m.total_amount + p.price,
              balance := 0,
              state := .idle })) := by
  rcases hm : m.state with _ | _ | _
  · exact Or.inl ⟨.invalidStateError, by rw [VendingMachine.select_product, hm]⟩
  · rcases hg : m.inventory.get_product code with _ | p
    · exact Or.inl ⟨.productNotFoundError, by rw [VendingMachine.select_product, hm, hg]⟩
    · by_cases hs : m.inventory.has_stock p
      · by_cases hb : m.balance < p.price
        · refine Or.inl ⟨.insufficientFundsError, ?_⟩
          rw [VendingMachine.select_product, hm, hg]
          dsimp only
          rw [if_neg (not_not_intro hs), if_pos hb]
        · refine Or.inr ⟨p, rfl, rfl, hs, not_lt.mp hb, ?_⟩
          rw [VendingMachine.select_product, hm, hg]
          dsimp only
          rw [if_neg (not_not_intro hs), if_neg hb, Inventory.dispense_product]
          dsimp only
          rw [if_neg (not_not_intro hs)]
      · refine Or.inl ⟨.outOfStockError, ?_⟩
        rw [VendingMachine.select_product, hm, hg]
        dsimp only
        rw [if_pos hs]
  · exact Or.inl ⟨.invalidStateError, by rw [VendingMachine.select_product, hm]⟩

/-! Preservation of the inventory invariants. -/

theorem stockNonneg_updateStock {l : List (Product × ℤ)} {p : Product} {n : ℤ}
    (hl : ∀ e ∈ l, 0 ≤ e.2) (hn : 0 ≤ n) : ∀ e ∈ updateStock l p n, 0 ≤ e.2 := by
  intro e he
  rcases mem_updateStock he with h | ⟨h2, _⟩
  · exact hl e h
  · rw [h2]; exact hn

theorem pricesNonneg_updateStock {l : List (Product × ℤ)} {p : Product} {n : ℤ}
    (hl : ∀ e ∈ l, 0 ≤ e.1.price) (hp : 0 ≤ p.price) :
    ∀ e ∈ updateStock l p n, 0 ≤ e.1.price := by
  intro e he
  rcases mem_updateStock he with h | ⟨_, h3⟩
  · exact hl e h
  · rcases h3 with h3 | ⟨f, hf, hef⟩
    · rw [h3]; exact hp
    · rw [hef]; exact hl f hf

theorem add_product_invariants {inv : Inventory} {p : Product} {q : ℤ}
    (h1 : stockNonneg inv) (h2 : pricesNonneg inv) (hp : 0 ≤ p.price) :
    stockNonneg (inv.add_product p q).2 ∧ pricesNonneg (inv.add_product p q).2 := by
  rw [Inventory.add_product]
  split
  · exact ⟨h1, h2⟩
  · next hq =>
    have hq0 : 0 < q := lt_of_not_le hq
    have hn : 0 ≤ inv.get_product_stock p + q :=
      add_nonneg (get_product_stock_nonneg h1 p) (le_of_lt hq0)
    split
    · split
      · exact ⟨h1, h2⟩
      · exact ⟨stockNonneg_updateStock h1 hn, pricesNonneg_updateStock h2 hp⟩
    · exact ⟨stockNonneg_updateStock h1 hn, pricesNonneg_updateStock h2 hp⟩

/-- roundHalfUpCents of a positive amount is non-negative. -/
theorem roundHalfUpCents_nonneg {q : ℚ} (h : 0 < q) : 0 ≤ roundHalfUpCents q := by
  rw [roundHalfUpCents]
  rw [show (0 : ℤ) = ⌊(0 : ℚ)⌋ by simp]
  apply Int.floor_le_floor
  positivity

/-- Prices produced by Product.make are non-negative. -/
theorem product_make_price_nonneg {n c : String} {q : ℚ} {p : Product}
    (h : Product.make n q c = .ok p) : 0 ≤ p.price := by
  rw [Product.make] at h
  split at h
  · exact absurd h (by simp)
  · next hq =>
    cases h
    exact roundHalfUpCents_nonneg (lt_of_not_le hq)

/-- Both inventory invariants hold in every reachable machine state. -/
theorem reachable_inventory_invariants {m : VendingMachine} (h : Reachable m) :
    stockNonneg m.inventory ∧ pricesNonneg m.inventory := by
  induction h with
  | init name =>
    exact ⟨fun e he => absurd he (List.not_mem_nil e), fun e he => absurd he (List.not_mem_nil e)⟩
  | step op hr ih =>
    rcases ih with ⟨h1, h2⟩
    rename_i m0
    rcases op with a | c | _ | ⟨name, price, code, qty⟩
    · rw [VendingMachine.runOp, (insert_money_frame m0 a).1]; exact ⟨h1, h2⟩
    · rcases select_product_spec m0 c with ⟨e, he⟩ | ⟨p, _, hg, hs, _, he⟩
      · rw [VendingMachine.runOp, he]; exact ⟨h1, h2⟩
      · rw [VendingMachine.runOp, he]
        have hn : 0 ≤ m0.inventory.get_product_stock p - 1 := by
          have := hs
          rw [Inventory.has_stock] at this
          omega
        exact ⟨stockNonneg_updateStock h1 hn,
          pricesNonneg_updateStock h2 (get_product_price_nonneg h2 hg)⟩
    · rw [VendingMachine.runOp, (cancel_frame m0).1]; exact ⟨h1, h2⟩
    · rw [VendingMachine.runOp]
      rcases hmk : Product.make name price code with _ | p
      · exact ⟨h1, h2⟩
      · exact add_product_invariants h1 h2 (product_make_price_nonneg hmk)

/-- Evaluation of the rounding at the amounts used in the concrete runs. -/
theorem roundHalfUpCents_three : roundHalfUpCents 3 = 300 := by
  rw [roundHalfUpCents]; norm_num

/-! Claim theorems. -/

/-- Claim C2: whenever select_product fails, for any reason, the returned
machine is identical to the pre-call machine: same balance, same state tag
and the same inventory, hence every stock count. -/
theorem select_product_failure_preserves_machine (m : VendingMachine) (code : String)
    (e : VMError) (h : (m.select_product code).1 = .error e) :
    (m.select_product code).2 = m := by
  rcases select_product_spec m code with ⟨e1, he⟩ | ⟨p, _, _, _, _, he⟩
  · rw [he]
  · rw [he] at h
    simp at h

theorem select_product_failure_preserves_machine_witness :
    ((VendingMachine.new "M").select_product "A1").2 = VendingMachine.new "M" :=
  select_product_failure_preserves_machine (VendingMachine.new "M") "A1"
    .invalidStateError rfl

/-- Claim C3: a successful select_product from hasMoney returns change
equal to the prior balance minus the price, zeroes the balance, adds the
price to lifetime revenue and ends in the idle state. -/
theorem select_product_success_conservation (m : VendingMachine) (code : String)
    (p : Product) (change : ℤ) (m' : VendingMachine)
    (_hs : m.state = .hasMoney)
    (h : m.select_product code = (.ok (p, change), m')) :
    change = m.balance - p.price ∧ m'.balance = 0 ∧
    m'.total_amount = m.total_amount + p.price ∧ m'.state = .idle := by
  rcases select_product_spec m code with ⟨e, he⟩ | ⟨q, _, _, _, _, he⟩
  · rw [he] at h
    have h1 := congrArg Prod.fst h
    simp at h1
  · rw [he] at h
    have h1 := congrArg Prod.fst h
    have h2 := congrArg Prod.snd h
    dsimp only at h1 h2
    simp only [Except.ok.injEq, Prod.mk.injEq] at h1
    obtain ⟨rfl, rfl⟩ := h1
    rw [← h2]
    exact ⟨rfl, rfl, rfl, rfl⟩

theorem select_product_success_conservation_witness :
    (50 : ℤ) = demoMachine.balance - coke.price ∧ demoSold.balance = 0 ∧
    demoSold.total_amount = demoMachine.total_amount + coke.price ∧
    demoSold.state = .idle :=
  select_product_success_conservation demoMachine "A1" coke 50 demoSold rfl rfl

/-- Claim C6: stock drops by exactly one for the sold product on a
successful sale and is untouched for every other product; no failing
operation touches any stock count; dispensing with a zero count fails out
of stock without mutation; and every reachable stock count is
non-negative. -/
theorem stock_decrement_properties :
    (∀ (m : VendingMachine) (code : String) (p : Product) (change : ℤ)
        (m' : VendingMachine),
        m.select_product code = (.ok (p, change), m') →
        m'.inventory.get_product_stock p = m.inventory.get_product_stock p - 1 ∧
        ∀ q : Product, q.code ≠ p.code →
          m'.inventory.get_product_stock q = m.inventory.get_product_stock q) ∧
    (∀ (m : VendingMachine) (code : String) (e : VMError),
        (m.select_product code).1 = .error e →
        (m.select_product code).2.inventory = m.inventory) ∧
    (∀ (m : VendingMachine) (a : ℚ), (m.insert_money a).2.inventory = m.inventory) ∧
    (∀ m : VendingMachine, m.cancel.2.inventory = m.inventory) ∧
    (∀ (inv : Inventory) (p : Product), inv.get_product_stock p = 0 →
        inv.dispense_product p = (.error .outOfStockError, inv)) ∧
    (∀ m : VendingMachine, Reachable m → ∀ p : Product,
        0 ≤ m.inventory.get_product_stock p) := by
  refine ⟨?_, ?_, ?_, ?_, ?_, ?_⟩
  · intro m code p change m' h
    rcases select_product_spec m code with ⟨e, he⟩ | ⟨q, _, _, _, _, he⟩
    · rw [he] at h
      have h1 := congrArg Prod.fst h
      simp at h1
    · rw [he] at h
      have h1 := congrArg Prod.fst h
      have h2 := congrArg Prod.snd h
      dsimp only at h1 h2
      simp only [Except.ok.injEq, Prod.mk.injEq] at h1
      obtain ⟨rfl, -⟩ := h1
      rw [← h2]
      exact ⟨get_stock_updateStock_eq m.inventory.stock _ _ _ rfl,
        fun r hr => get_stock_updateStock_ne m.inventory.stock _ r _ hr⟩
  · intro m code e h
    rcases select_product_spec m code with ⟨e1, he⟩ | ⟨p, _, _, _, _, he⟩
    · rw [he]
    · rw [he] at h
      simp at h
  · exact fun m a => (insert_money_frame m a).1
  · exact fun m => (cancel_frame m).1
  · intro inv p h
    rw [Inventory.dispense_product, if_pos (by simp [Inventory.has_stock, h])]
  · exact fun m hr p => get_product_stock_nonneg (reachable_inventory_invariants hr).1 p

theorem stock_decrement_properties_witness :
    demoSold.inventory.get_product_stock coke =
      demoMachine.inventory.get_product_stock coke - 1 :=
  (stock_decrement_properties.1 demoMachine "A1" coke 50 demoSold rfl).1

/-- Claim C7: a non-positive amount is rejected with ValueError by both
states that accept money, and the machine is returned unchanged. -/
theorem insert_money_nonpositive_rejected (m : VendingMachine) (a : ℚ)
    (ha : a ≤ 0) (hs : m.state = .idle ∨ m.state = .hasMoney) :
    m.insert_money a = (.error .valueError, m) := by
  rcases hs with h | h <;>
    · rw [VendingMachine.insert_money, h]
      dsimp only
      rw [if_pos ha]

theorem insert_money_nonpositive_rejected_witness :
    (VendingMachine.new "M").insert_money 0 = (.error .valueError, VendingMachine.new "M") :=
  insert_money_nonpositive_rejected (VendingMachine.new "M") 0 (le_refl 0) (Or.inl rfl)

/-- Claim C8: add_product rejects non-positive quantities with ValueError,
rejects a same-code different-name entry with the code-conflict error, and
otherwise raises the stored count for that code by exactly the quantity,
creating the entry when absent; failures leave the inventory unchanged. -/
theorem add_product_spec (inv : Inventory) (p : Product) (q : ℤ) :
    (q ≤ 0 → inv.add_product p q = (.error .valueError, inv)) ∧
    (0 < q → ∀ e : Product, inv.get_product p.code = some e → e.name ≠ p.name →
        inv.add_product p q = (.error .productCodeAlreadyUsedError, inv)) ∧
    (0 < q → (∀ e : Product, inv.get_product p.code = some e → e.name = p.name) →
        (inv.add_product p q).1 = .ok (p, inv.get_product_stock p + q) ∧
        (inv.add_product p q).2.get_product_stock p = inv.get_product_stock p + q ∧
        ∀ r : Product, r.code ≠ p.code →
          (inv.add_product p q).2.get_product_stock r = inv.get_product_stock r) := by
  refine ⟨?_, ?_, ?_⟩
  · intro hq
    rw [Inventory.add_product, if_pos hq]
  · intro hq e hge hne
    rw [Inventory.add_product, if_neg (not_le.mpr hq), hge]
    dsimp only
    rw [if_pos (Ne.symm hne)]
  · intro hq hname
    rw [Inventory.add_product, if_neg (not_le.mpr hq)]
    rcases hg : inv.get_product p.code with _ | e
    · exact ⟨rfl, get_stock_updateStock_eq inv.stock p p _ rfl,
        fun r hr => get_stock_updateStock_ne inv.stock p r _ hr⟩
    · dsimp only
      rw [if_neg (not_not_intro (hname e hg).symm)]
      exact ⟨rfl, get_stock_updateStock_eq inv.stock p p _ rfl,
        fun r hr => get_stock_updateStock_ne inv.stock p r _ hr⟩

theorem add_product_spec_witness :
    ((Inventory.mk []).add_product coke 5).1 =
      .ok (coke, (Inventory.mk []).get_product_stock coke + 5) :=
  ((add_product_spec ⟨[]⟩ coke 5).2.2 (by decide)
    (fun e he => absurd he (by simp [Inventory.get_product, lookupEntry, Option.map]))).1

/-- Claim C9: a positive inserted amount is rounded half-up to a whole
number of cents and stored as (idle) or added to (hasMoney) the balance,
which therefore always is a whole number of cents; the returned value is
the new balance, and the rounding satisfies the half-up characterisation
of two-digit quantization. -/
theorem insert_money_rounding (m : VendingMachine) (a : ℚ) (ha : 0 < a) :
    (m.state = .idle →
      m.insert_money a =
        (.ok (roundHalfUpCents a),
         { m with balance := roundHalfUpCents a, state := .hasMoney })) ∧
    (m.state = .hasMoney →
      m.insert_money a =
        (.ok (m.balance + roundHalfUpCents a),
         { m with balance := m.balance + roundHalfUpCents a })) ∧
    (roundHalfUpCents a : ℚ) - 1 / 2 ≤ a * 100 ∧
    a * 100 < (roundHalfUpCents a : ℚ) + 1 / 2 := by
  refine ⟨?_, ?_, ?_, ?_⟩
  · intro h
    rw [VendingMachine.insert_money, h]
    dsimp only
    rw [if_neg (not_le.mpr ha)]
  · intro h
    rw [VendingMachine.insert_money, h]
    dsimp only
    rw [if_neg (not_le.mpr ha)]
  · have hf := Int.floor_le (a * 100 + 1 / 2)
    rw [roundHalfUpCents]
    linarith
  · have hf := Int.lt_floor_add_one (a * 100 + 1 / 2)
    rw [roundHalfUpCents]
    push_cast at hf ⊢
    linarith

theorem insert_money_rounding_witness :
    (VendingMachine.new "M").insert_money 3 =
      (.ok (roundHalfUpCents 3),
       { VendingMachine.new "M" with balance := roundHalfUpCents 3, state := .hasMoney }) :=
  (insert_money_rounding (VendingMachine.new "M") 3 (by decide)).1 rfl

/-- Claim C1 is contradicted by the source: from hasMoney, cancel returns
the full balance as refund and zeroes the balance, but the machine stays
in the hasMoney state because the source never sets the state back to
idle. -/
theorem cancel_keeps_hasMoney_state :
    ((VendingMachine.new "M").insert_money 3).2.cancel.1 = .ok 300 ∧
    ((VendingMachine.new "M").insert_money 3).2.cancel.2.balance = 0 ∧
    ((VendingMachine.new "M").insert_money 3).2.cancel.2.state = .hasMoney := by
  have h3 : ¬ (3 : ℚ) ≤ 0 := by norm_num
  simp [VendingMachine.new, VendingMachine.insert_money, VendingMachine.cancel, h3,
    roundHalfUpCents_three]

/-- Claim C4 is contradicted by the source: inserting money and then
cancelling yields a reachable machine whose balance is 0 while its state
is hasMoney, not idle. -/
theorem balance_zero_outside_idle_reachable :
    Reachable afterCancel ∧ afterCancel.balance = 0 ∧ afterCancel.state = .hasMoney := by
  have h3 : ¬ (3 : ℚ) ≤ 0 := by norm_num
  refine ⟨Reachable.step .cancel (Reachable.step (.insertMoney 3) (Reachable.init "M")),
    ?_, ?_⟩ <;>
    simp [afterCancel, VendingMachine.runOp, VendingMachine.new,
      VendingMachine.insert_money, VendingMachine.cancel, h3]

/-- Claim C5 is contradicted by the source: on the reachable machine with
balance 0 left behind by a cancel, a second cancel succeeds and returns a
refund of 0 instead of failing with a no-active-transaction error. -/
theorem cancel_succeeds_with_zero_balance :
    Reachable afterCancel ∧ afterCancel.balance = 0 ∧
    afterCancel.cancel.1 = .ok 0 ∧ afterCancel.cancel.2 = afterCancel := by
  have h3 : ¬ (3 : ℚ) ≤ 0 := by norm_num
  refine ⟨Reachable.step .cancel (Reachable.step (.insertMoney 3) (Reachable.init "M")),
    ?_, ?_, ?_⟩ <;>
    simp [afterCancel, VendingMachine.runOp, VendingMachine.new,
      VendingMachine.insert_money, VendingMachine.cancel, h3]

/-- The Gum product of the C10 counterexample: the input price 1/250
(0.004) is positive, so the constructor accepts it, yet it quantizes to 0
cents. -/
def gum : Product := ⟨"Gum", 0, "A1"⟩

theorem roundHalfUpCents_gum : roundHalfUpCents (1 / 250) = 0 := by
  rw [roundHalfUpCents]; norm_num

/-- Claim C10 is false at price 0.004: the constructor accepts it because
the positivity check runs before quantization, the stored price is 0.00,
and a sale of that product leaves lifetime revenue unchanged. -/
theorem product_price_rounds_to_zero :
    Product.make "Gum" (1 / 250) "A1" = .ok gum ∧ gum.price = 0 ∧
    ((((VendingMachine.new "M").runOp (.addProduct "Gum" (1 / 250) "A1" 1)).runOp
        (.insertMoney 3)).select_product "A1").1 = .ok (gum, 300) ∧
    ((((VendingMachine.new "M").runOp (.addProduct "Gum" (1 / 250) "A1" 1)).runOp
        (.insertMoney 3)).select_product "A1").2.total_amount =
      ((((VendingMachine.new "M")).runOp (.addProduct "Gum" (1 / 250) "A1" 1)).runOp
        (.insertMoney 3)).total_amount := by
  have hmk : Product.make "Gum" (1 / 250) "A1" = .ok gum := by
    rw [Product.make, if_neg (by norm_num : ¬ (1 / 250 : ℚ) ≤ 0), roundHalfUpCents_gum]
    rfl
  have hm0 : (VendingMachine.new "M").runOp (.addProduct "Gum" (1 / 250) "A1" 1) =
      ⟨"M", ⟨[(gum, 1)]⟩, 0, 0, .idle⟩ := by
    rw [VendingMachine.runOp, hmk]
    rfl
  have hm1 : (⟨"M", ⟨[(gum, 1)]⟩, 0, 0, .idle⟩ : VendingMachine).runOp (.insertMoney 3) =
      ⟨"M", ⟨[(gum, 1)]⟩, 300, 0, .hasMoney⟩ := by
    rw [VendingMachine.runOp, VendingMachine.insert_money]
    dsimp only
    rw [if_neg (by norm_num : ¬ (3 : ℚ) ≤ 0), roundHalfUpCents_three]
  refine ⟨hmk, rfl, ?_, ?_⟩ <;>
    · rw [hm0, hm1]
      rfl

/-- Claim C10 amended: the constructor rejects price inputs at or below
zero; every constructed product carries a non-negative quantized price
(possibly 0 for inputs below half a cent); lifetime revenue never
decreases over any reachable step; and each successful sale adds exactly
the stored price to lifetime revenue. -/
theorem revenue_monotone_amended :
    (∀ (n c : String) (q : ℚ), q ≤ 0 → Product.make n q c = .error .valueError) ∧
    (∀ (n c : String) (q : ℚ) (p : Product), Product.make n q c = .ok p → 0 ≤ p.price) ∧
    (∀ m : VendingMachine, Reachable m → ∀ op : Op,
        m.total_amount ≤ (m.runOp op).total_amount) ∧
    (∀ (m : VendingMachine) (code : String) (p : Product) (change : ℤ)
        (m' : VendingMachine),
        m.select_product code = (.ok (p, change), m') →
        m'.total_amount = m.total_amount + p.price) := by
  refine ⟨?_, ?_, ?_, ?_⟩
  · intro n c q hq
    rw [Product.make, if_pos hq]
  · intro n c q p h
    exact product_make_price_nonneg h
  · intro m hr op
    rcases op with a | c | _ | ⟨name, price, code, qty⟩
    · rw [VendingMachine.runOp, (insert_money_frame m a).2]
    · rcases select_product_spec m c with ⟨e, he⟩ | ⟨p, _, hg, _, _, he⟩
      · rw [VendingMachine.runOp, he]
      · rw [VendingMachine.runOp, he]
        have hp : 0 ≤ p.price :=
          get_product_price_nonneg (reachable_inventory_invariants hr).2 hg
        exact le_add_of_nonneg_right hp
    · rw [VendingMachine.runOp, (cancel_frame m).2]
    · rw [VendingMachine.runOp]
      rcases Product.make name price code with _ | p
      · exact le_refl _
      · exact le_refl _
  · intro m code p change m' h
    rcases select_product_spec m code with ⟨e, he⟩ | ⟨q, _, _, _, _, he⟩
    · rw [he] at h
      have h1 := congrArg Prod.fst h
      simp at h1
    · rw [he] at h
      have h1 := congrArg Prod.fst h
      have h2 := congrArg Prod.snd h
      dsimp only at h1 h2
      simp only [Except.ok.injEq, Prod.mk.injEq] at h1
      obtain ⟨rfl, -⟩ := h1
      rw [← h2]

theorem revenue_monotone_amended_witness :
    Product.make "X" (-1) "C" = .error .valueError :=
  revenue_monotone_amended.1 "X" "C" (-1) (by decide)

end VM
